import Mathlib

set_option maxHeartbeats 1000000

/-
Verification of the concurrency patterns in `advanced-golang-concurrency`.

The Go sources are embedded shallowly:
* the or-channel combinator `or` (example-1.go, lines 372-400) is modelled
  by `orFires` (eventual-firing semantics), `orReturn` (the returned channel
  value) and `orSelectArms` (which channels the spawned worker's select
  statement observes);
* the fan-in merge `fanIn` (example-1.go, lines 917-948) is modelled by a
  step relation `FanInStep` on explicit states;
* the steward / ward supervisor `newSteward` (theory-1.txt, lines 1116-1158)
  is modelled by an event-driven state machine `stewardStep` and by the
  action trace `stewardTrace`;
* the heartbeat generator `DoWork` (theory-1.txt, lines 1260-1284) and the
  non-blocking pulse send `sendPulse` (theory-1.txt, lines 581-586) are
  modelled by an event-trace semantics `doWorkEvents` and a channel-state
  function `sendPulse`.
-/

/-- A Go channel value as far as the or-combinator's return value is
concerned: either Go's `nil` channel (returned for zero inputs) or a
channel object identified by an allocation id. -/
inductive GoChan where
  | nilChan : GoChan
  | chan (id : Nat) : GoChan
deriving DecidableEq

/-- Eventual-firing semantics of the or-channel combinator
(`or`, example-1.go lines 372-400).  Each input channel is abstracted by
a `Bool`: whether it eventually fires (is closed or written to).

* `[]` — the code returns a `nil` channel, which never fires;
* `[c]` — the code returns `channels[0]` itself;
* `[c1, c2]` — the worker's select completes when either fires, after which
  `orDone` is closed;
* `c1 :: c2 :: c3 :: rest` — the worker selects on the first three channels
  and on `or(append(channels[3:], orDone)...)`.  The appended `orDone` is the
  composite's own output channel; causally it is closed only after the
  worker's select has already completed, so in the least-fixpoint (real
  execution) semantics it contributes no independent firing and is modelled
  by `false`. -/
def orFires : List Bool → Bool
  | [] => false
  | [c] => c
  | [c1, c2] => c1 || c2
  | c1 :: c2 :: c3 :: rest => c1 || c2 || c3 || orFires (rest ++ [false])
termination_by cs => cs.length
decreasing_by simp [List.length_append]

/-- The channel value returned by `or` (example-1.go lines 372-400):
`nil` for zero inputs, the single input itself for one input, and a
freshly made channel `orDone` (allocation id `fresh`) otherwise. -/
def orReturn (channels : List GoChan) (fresh : Nat) : GoChan :=
  match channels with
  | [] => GoChan.nilChan
  | [c] => c
  | _ => GoChan.chan fresh

/-- The select arms of the worker goroutine spawned by `or`
(example-1.go lines 384-397), with `orDone` the composite's own output
channel.  `none` when no goroutine is spawned (0 or 1 inputs); otherwise
`some (direct, recur)` where `direct` lists the input channels the select
observes directly and `recur` is the argument list of the recursive
`or(append(channels[3:], orDone)...)` arm, when present. -/
def orSelectArms {α : Type} (orDone : α) : List α → Option (List α × Option (List α))
  | [] => none
  | [_] => none
  | [c1, c2] => some ([c1, c2], none)
  | c1 :: c2 :: c3 :: rest => some ([c1, c2, c3], some (rest ++ [orDone]))

theorem orFires_eq_any (cs : List Bool) : orFires cs = cs.any id := by
  have H : ∀ n (cs : List Bool), cs.length ≤ n → orFires cs = cs.any id := by
    intro n
    induction n with
    | zero =>
        intro cs h
        cases cs with
        | nil => simp [orFires]
        | cons c cs1 => simp at h
    | succ n ih =>
        intro cs h
        cases cs with
        | nil => simp [orFires]
        | cons c1 cs1 =>
          cases cs1 with
          | nil => simp [orFires]
          | cons c2 cs2 =>
            cases cs2 with
            | nil => simp [orFires]
            | cons c3 rest =>
              have hr := ih (rest ++ [false]) (by simp at h ⊢; omega)
              simp only [orFires, hr, List.any_append, List.any_cons, List.any_nil, id]
              simp [Bool.or_assoc]
  exact H cs.length cs le_rfl

/-- C1: the composite channel built by `or` fires if and only if at least
one of its input channels fires; for zero inputs it never fires, and for
one input the returned channel is that input itself. -/
theorem or_combinator_fires_iff :
    (∀ cs : List Bool, orFires cs = true ↔ ∃ c ∈ cs, c = true) ∧
    orFires [] = false ∧
    (∀ (c : GoChan) (fresh : Nat), orReturn [c] fresh = c) := by
  refine ⟨?_, by simp [orFires], fun c fresh => rfl⟩
  intro cs
  rw [orFires_eq_any]
  simp [List.any_eq_true, id]

/-- C10: applied to zero inputs, `or` returns Go's `nil` channel value
itself (so the result compares equal to `nil` and is not a distinct
closable object), and the zero-ary composite never fires (a receive
from a nil channel blocks forever). -/
theorem or_zero_inputs_nil :
    (∀ fresh : Nat, orReturn [] fresh = GoChan.nilChan) ∧ orFires [] = false :=
  ⟨fun _ => rfl, by simp [orFires]⟩

/-- C8 counterexample: with four inputs `[0, 1, 2, 3]` the worker's select
does not observe the first two inputs plus an or-combination of the
remaining inputs `[2, 3]`: it observes the first three inputs plus an
or-combination of `[3, orDone]` (here `orDone = 99`). -/
theorem orSelectArms_not_first_two :
    orSelectArms 99 [0, 1, 2, 3] ≠ some ([0, 1], some [2, 3]) ∧
    orSelectArms 99 [0, 1, 2, 3] = some ([0, 1, 2], some [3, 99]) := by
  constructor
  · decide
  · rfl

/-- C8 (amended): for exactly two inputs the worker observes just those two
channels with no recursive or-arm; for three or more inputs it observes the
first three plus a recursively-combined or of the remaining inputs with the
composite's own `orDone` channel appended. -/
theorem or_worker_observes {α : Type} (orDone : α) (cs : List α) (h : 2 ≤ cs.length) :
    orSelectArms orDone cs =
      if cs.length = 2 then some (cs.take 2, none)
      else some (cs.take 3, some (cs.drop 3 ++ [orDone])) := by
  match cs with
  | [] => simp at h
  | [_] => simp at h
  | [c1, c2] => simp [orSelectArms]
  | c1 :: c2 :: c3 :: rest => simp [orSelectArms]

/-- Witness for `or_worker_observes` at the concrete input `[0, 1, 2, 3]`. -/
theorem or_worker_observes_witness :
    2 ≤ ([0, 1, 2, 3] : List Nat).length ∧
    orSelectArms 99 [0, 1, 2, 3] =
      (if ([0, 1, 2, 3] : List Nat).length = 2
       then some (([0, 1, 2, 3] : List Nat).take 2, none)
       else some (([0, 1, 2, 3] : List Nat).take 3,
                  some (([0, 1, 2, 3] : List Nat).drop 3 ++ [99]))) :=
  ⟨by decide, or_worker_observes 99 [0, 1, 2, 3] (by decide)⟩

/-- Sum, as a multiset, of a list of channels' contents. -/
def msum {α : Type} (L : List (List α)) : Multiset α :=
  (L.map (fun l => (l : Multiset α))).sum

theorem msum_cons {α : Type} (hd : List α) (tl : List (List α)) :
    msum (hd :: tl) = (hd : Multiset α) + msum tl := by
  simp [msum]

theorem coe_cons_multiset {α : Type} (x : α) (l : List α) :
    ((x :: l : List α) : Multiset α) = {x} + ↑l := by
  simp

theorem msum_set {α : Type} (rem : List (List α)) (i : Nat) (x : α) (rest : List α)
    (h : rem.get? i = some (x :: rest)) :
    msum (rem.set i rest) + {x} = msum rem := by
  induction rem generalizing i with
  | nil => simp [List.get?] at h
  | cons hd tl ih =>
    cases i with
    | zero =>
        simp only [List.get?] at h
        injection h with h
        subst h
        rw [show (((x :: rest) :: tl).set 0 rest) = rest :: tl from rfl]
        rw [msum_cons, msum_cons, coe_cons_multiset]
        abel
    | succ n =>
        simp only [List.get?] at h
        rw [show ((hd :: tl).set (n + 1) rest) = hd :: tl.set n rest from rfl]
        rw [msum_cons, msum_cons, add_assoc, ih n h]

theorem msum_flatten {α : Type} (L : List (List α)) :
    ((L.flatten : List α) : Multiset α) = msum L := by
  induction L with
  | nil => rfl
  | cons hd tl ih =>
      rw [List.flatten_cons, msum_cons, ← ih]
      simp

theorem msum_eq_zero {α : Type} (L : List (List α)) (h : ∀ l ∈ L, l = []) :
    msum L = 0 := by
  induction L with
  | nil => rfl
  | cons hd tl ih =>
      rw [msum_cons, h hd (List.mem_cons_self hd tl), ih fun l hl => h l (List.mem_cons_of_mem hd hl)]
      simp

/-- State of a run of the fan-in merge `fanIn` (example-1.go lines 917-948)
with no cancellation: `remaining` holds, per multiplex worker, the items of
its input channel not yet forwarded; `output` holds the items sent on
`multiplexedStream` in send order; `closed` records whether
`multiplexedStream` has been closed. -/
structure FanInState (α : Type) where
  remaining : List (List α)
  output : List α
  closed : Bool

/-- One scheduler step of `fanIn` (example-1.go lines 917-948) in a run
with no cancellation (`done` never fires, so every worker's select takes
the `multiplexedStream <- i` arm):

* `send`: a multiplex worker whose input channel still holds `x :: rest`
  forwards `x` to `multiplexedStream` (workers forward their channel's
  items in order; any worker may be scheduled next);
* `close`: the supervisory goroutine returns from `wg.Wait()` — possible
  only once every worker has exhausted its channel and performed all its
  sends — and closes `multiplexedStream`, which must still be open. -/
inductive FanInStep {α : Type} : FanInState α → FanInState α → Prop
  | send (s : FanInState α) (i : Nat) (x : α) (rest : List α)
      (hi : s.remaining.get? i = some (x :: rest)) (hc : s.closed = false) :
      FanInStep s ⟨s.remaining.set i rest, s.output ++ [x], false⟩
  | close (s : FanInState α) (hall : ∀ l ∈ s.remaining, l = []) (hc : s.closed = false) :
      FanInStep s ⟨s.remaining, s.output, true⟩

/-- Reachability from the initial `fanIn` state where each of the `k`
workers still has its whole input channel to forward, nothing has been
multiplexed and the merge channel is open. -/
def FanInReach {α : Type} (channels : List (List α)) (s : FanInState α) : Prop :=
  Relation.ReflTransGen FanInStep ⟨channels, [], false⟩ s

theorem fanIn_inv_step {α : Type} (channels : List (List α)) (s t : FanInState α)
    (hst : FanInStep s t)
    (hinv : (s.output : Multiset α) + msum s.remaining = msum channels ∧
            (s.closed = true → ∀ l ∈ s.remaining, l = [])) :
    (t.output : Multiset α) + msum t.remaining = msum channels ∧
    (t.closed = true → ∀ l ∈ t.remaining, l = []) := by
  obtain ⟨ihm, ihc⟩ := hinv
  cases hst with
  | send i x rest hi hc =>
      refine ⟨?_, fun hcl => by simp at hcl⟩
      have hset := msum_set s.remaining i x rest hi
      have hcoe : ((s.output ++ [x] : List α) : Multiset α) = ↑s.output + {x} := rfl
      calc ((s.output ++ [x] : List α) : Multiset α) + msum (s.remaining.set i rest)
          = ↑s.output + ({x} + msum (s.remaining.set i rest)) := by rw [hcoe, add_assoc]
        _ = ↑s.output + (msum (s.remaining.set i rest) + {x}) := by
              rw [add_comm ({x} : Multiset α)]
        _ = ↑s.output + msum s.remaining := by rw [hset]
        _ = msum channels := ihm
  | close hall hc =>
      exact ⟨ihm, fun _ => hall⟩

theorem fanIn_inv {α : Type} (channels : List (List α)) (s : FanInState α)
    (h : FanInReach channels s) :
    (s.output : Multiset α) + msum s.remaining = msum channels ∧
    (s.closed = true → ∀ l ∈ s.remaining, l = []) := by
  induction h with
  | refl =>
      refine ⟨by simp, fun hcl => by simp at hcl⟩
  | tail hab hbc ih =>
      exact fanIn_inv_step _ _ _ hbc ih

theorem fanIn_step_open {α : Type} (s t : FanInState α) (h : FanInStep s t) :
    s.closed = false := by
  cases h with
  | send i x rest hi hc => exact hc
  | close hall hc => exact hc

/-- C2: in a cancellation-free run of `fanIn` over `k` worker channels
holding `n` items in total, whenever the merge channel has been closed the
merged output holds exactly the input items (as a multiset: no duplicates,
no drops, so exactly `n` items), every worker had already finished, and no
further step — in particular no second close — is possible. -/
theorem fanIn_completeness {α : Type} (channels : List (List α)) (s : FanInState α)
    (h : FanInReach channels s) (hc : s.closed = true) :
    (s.output : Multiset α) = ↑channels.flatten ∧
    s.output.length = (channels.map List.length).sum ∧
    (∀ l ∈ s.remaining, l = []) ∧
    (∀ t, ¬ FanInStep s t) := by
  obtain ⟨hm, hcl⟩ := fanIn_inv channels s h
  have hempty := hcl hc
  have hrem : msum s.remaining = 0 := msum_eq_zero s.remaining hempty
  have hout : (s.output : Multiset α) = ↑channels.flatten := by
    rw [msum_flatten]
    rw [hrem, add_zero] at hm
    exact hm
  refine ⟨hout, ?_, hempty, fun t hstep => by rw [fanIn_step_open s t hstep] at hc; exact Bool.false_ne_true hc⟩
  have hcard := congrArg Multiset.card hout
  simpa [List.length_flatten] using hcard

/-- Witness for `fanIn_completeness`: the run of `fanIn` over the two
worker channels `[1]` and `[2]` that forwards both items and then closes. -/
theorem fanIn_completeness_witness :
    (([1, 2] : List Nat) : Multiset Nat) = ↑([[1], [2]] : List (List Nat)).flatten ∧
    ([1, 2] : List Nat).length = (([[1], [2]] : List (List Nat)).map List.length).sum ∧
    (∀ l ∈ ([[], []] : List (List Nat)), l = []) ∧
    (∀ t, ¬ FanInStep (⟨[[], []], [1, 2], true⟩ : FanInState Nat) t) := by
  refine fanIn_completeness [[1], [2]] ⟨[[], []], [1, 2], true⟩ ?_ rfl
  have h1 : FanInStep (⟨[[1], [2]], [], false⟩ : FanInState Nat) ⟨[[], [2]], [1], false⟩ :=
    FanInStep.send _ 0 1 [] rfl rfl
  have h2 : FanInStep (⟨[[], [2]], [1], false⟩ : FanInState Nat) ⟨[[], []], [1, 2], false⟩ :=
    FanInStep.send _ 1 2 [] rfl rfl
  have h3 : FanInStep (⟨[[], []], [1, 2], false⟩ : FanInState Nat) ⟨[[], []], [1, 2], true⟩ :=
    FanInStep.close _ (by decide) rfl
  exact Relation.ReflTransGen.head h1 (Relation.ReflTransGen.head h2 (Relation.ReflTransGen.single h3))

/-- Events observed by the monitor loop of the goroutine built by
`newSteward` (theory-1.txt lines 1116-1158), one per completed select:
* `tick` — the steward's own `pulse` ticker fired (it sends its own
  non-blocking heartbeat);
* `wardPulse` — a heartbeat arrived from the ward (`continue monitorLoop`);
* `wardTimeout` — `timeoutSignal` fired: no ward pulse (nor termination)
  was seen within `timeout`;
* `halt` — the steward's own `done` channel fired. -/
inductive StewardEvent where
  | tick : StewardEvent
  | wardPulse : StewardEvent
  | wardTimeout : StewardEvent
  | halt : StewardEvent
deriving DecidableEq

/-- Observable state of the steward: `restarts` counts the invocations of
`startWard` after the initial one (each re-invokes the ward factory
`startGoroutine`), `wardDoneClosed` counts the `close(wardDone)` calls,
and `stopped` records that the steward returned. -/
structure StewardState where
  restarts : Nat
  wardDoneClosed : Nat
  stopped : Bool
deriving DecidableEq

/-- One iteration of the steward's monitor loop (theory-1.txt lines
1129-1152).  On `wardTimeout` the steward closes the ward's private
`wardDone` channel — firing the `or(wardDone, done)` token the ward was
given — and immediately calls `startWard()` again, in the same branch.
After `halt` the goroutine has returned and processes nothing further. -/
def stewardStep (s : StewardState) (e : StewardEvent) : StewardState :=
  if s.stopped then s
  else
    match e with
    | StewardEvent.tick => s
    | StewardEvent.wardPulse => s
    | StewardEvent.wardTimeout =>
        { restarts := s.restarts + 1, wardDoneClosed := s.wardDoneClosed + 1, stopped := false }
    | StewardEvent.halt => { s with stopped := true }

/-- Run of the steward over a sequence of monitor-loop events, starting
right after the initial `startWard()`. -/
def stewardRun (events : List StewardEvent) : StewardState :=
  events.foldl stewardStep ⟨0, 0, false⟩

theorem stewardStep_stopped (s : StewardState) (e : StewardEvent)
    (h : s.stopped = true) : stewardStep s e = s := by
  simp [stewardStep, h]

theorem stewardRun_stopped (events : List StewardEvent) (s : StewardState)
    (h : s.stopped = true) : events.foldl stewardStep s = s := by
  induction events with
  | nil => rfl
  | cons e rest ih => rw [List.foldl_cons, stewardStep_stopped s e h, ih]

theorem stewardRun_aux (events : List StewardEvent) (s : StewardState)
    (h : s.stopped = false) :
    (events.foldl stewardStep s).restarts
        = s.restarts + (events.takeWhile (fun e => e ≠ StewardEvent.halt)).count StewardEvent.wardTimeout ∧
    (events.foldl stewardStep s).wardDoneClosed
        = s.wardDoneClosed + (events.takeWhile (fun e => e ≠ StewardEvent.halt)).count StewardEvent.wardTimeout := by
  induction events generalizing s with
  | nil => simp
  | cons e rest ih =>
      cases e with
      | tick =>
          have := ih s h
          simpa [stewardStep, h, List.takeWhile, List.count_cons] using this
      | wardPulse =>
          have := ih s h
          simpa [stewardStep, h, List.takeWhile, List.count_cons] using this
      | wardTimeout =>
          have := ih ⟨s.restarts + 1, s.wardDoneClosed + 1, false⟩ rfl
          simp [stewardStep, h, List.takeWhile, List.count_cons] at this ⊢
          omega
      | halt =>
          rw [List.foldl_cons]
          have hstop : (stewardStep s StewardEvent.halt).stopped = true := by
            simp [stewardStep, h]
          rw [stewardRun_stopped rest _ hstop]
          simp [stewardStep, h, List.takeWhile]

/-- C3: in every run of the steward, each occurrence of `wardTimeout`
(no ward heartbeat nor termination within `timeout`) before the steward is
halted closes the ward's private done channel and re-invokes the ward
factory, so the number of restarts — and of `close(wardDone)` calls —
equals the number of timeouts observed; in particular 3 consecutive
induced failures produce exactly 3 restarts. -/
theorem steward_restarts_on_timeout (events : List StewardEvent) :
    (stewardRun events).restarts
        = (events.takeWhile (fun e => e ≠ StewardEvent.halt)).count StewardEvent.wardTimeout ∧
    (stewardRun events).wardDoneClosed = (stewardRun events).restarts ∧
    stewardRun [StewardEvent.wardTimeout, StewardEvent.wardTimeout, StewardEvent.wardTimeout]
        = ⟨3, 3, false⟩ := by
  obtain ⟨h1, h2⟩ := stewardRun_aux events ⟨0, 0, false⟩ rfl
  simp only [show (⟨0, 0, false⟩ : StewardState).restarts = 0 from rfl,
    show (⟨0, 0, false⟩ : StewardState).wardDoneClosed = 0 from rfl, Nat.zero_add] at h1 h2
  refine ⟨by rw [stewardRun, h1], ?_, by decide⟩
  rw [stewardRun, h1, h2]

/-- Primitive actions the steward performs on ward lifecycles, tagged with
the ward generation: `makeWardDone g` is `wardDone = make(chan interface{})`
for generation `g`, `startWardGoroutine g` is the call
`startGoroutine(or(wardDone, done), timeout/2)` that starts ward instance
`g`, and `closeWardDone g` is `close(wardDone)` for generation `g`
(theory-1.txt lines 1123-1147). -/
inductive WardAction where
  | closeWardDone (gen : Nat) : WardAction
  | makeWardDone (gen : Nat) : WardAction
  | startWardGoroutine (gen : Nat) : WardAction
deriving DecidableEq

/-- The body of the `startWard` closure (theory-1.txt lines 1123-1127):
make a fresh private done channel, then invoke the ward factory with
`or(wardDone, done)`. -/
def startWardActions (gen : Nat) : List WardAction :=
  [WardAction.makeWardDone gen, WardAction.startWardGoroutine gen]

/-- The sequence of ward-lifecycle actions performed by a steward that has
observed `k` ward timeouts: the initial `startWard()` (theory-1.txt line
1128) followed, per timeout, by the `timeoutSignal` branch
`close(wardDone); startWard()` (theory-1.txt lines 1143-1147). -/
def stewardTrace : Nat → List WardAction
  | 0 => startWardActions 0
  | k + 1 => stewardTrace k ++ (WardAction.closeWardDone k :: startWardActions (k + 1))

/-- Contribution of an action to the number of currently active ward
instances: a factory invocation activates one, closing the ward's done
channel requests its cancellation (deactivating it), making a channel
activates nothing. -/
def activeDelta : WardAction → Int
  | WardAction.closeWardDone _ => -1
  | WardAction.makeWardDone _ => 0
  | WardAction.startWardGoroutine _ => 1

/-- Number of ward instances active after a sequence of actions. -/
def activeCount (tr : List WardAction) : Int :=
  (tr.map activeDelta).sum

/-- `activeOk c tr` checks that, starting from `c` active ward instances,
every intermediate point of `tr` has at most one active ward instance. -/
def activeOk : Int → List WardAction → Bool
  | _, [] => true
  | c, a :: rest => decide (c + activeDelta a ≤ 1) && activeOk (c + activeDelta a) rest

/-- Generations for which the steward created a fresh private done
channel, in creation order. -/
def madeGens (tr : List WardAction) : List Nat :=
  tr.filterMap fun a =>
    match a with
    | WardAction.makeWardDone g => some g
    | _ => none

theorem activeCount_append (l1 l2 : List WardAction) :
    activeCount (l1 ++ l2) = activeCount l1 + activeCount l2 := by
  simp [activeCount]

theorem activeOk_append (c : Int) (l1 l2 : List WardAction) :
    activeOk c (l1 ++ l2) = (activeOk c l1 && activeOk (c + activeCount l1) l2) := by
  induction l1 generalizing c with
  | nil => simp [activeOk, activeCount]
  | cons a rest ih =>
      have harg : c + activeDelta a + activeCount rest = c + activeCount (a :: rest) := by
        simp only [activeCount, List.map_cons, List.sum_cons]
        ring
      simp only [List.cons_append, activeOk, List.append_eq, ih, harg, Bool.and_assoc]

theorem madeGens_append (l1 l2 : List WardAction) :
    madeGens (l1 ++ l2) = madeGens l1 ++ madeGens l2 := by
  simp [madeGens]

theorem stewardTrace_ok (k : Nat) :
    activeOk 0 (stewardTrace k) = true ∧ activeCount (stewardTrace k) = 1 := by
  induction k with
  | zero => constructor <;> decide
  | succ n ih =>
      obtain ⟨h1, h2⟩ := ih
      constructor
      · rw [stewardTrace, activeOk_append, h1, h2]
        norm_num [activeOk, activeDelta, startWardActions]
      · rw [stewardTrace, activeCount_append, h2]
        norm_num [activeCount, activeDelta, startWardActions]

theorem stewardTrace_madeGens (k : Nat) :
    madeGens (stewardTrace k) = List.range (k + 1) := by
  induction k with
  | zero => rfl
  | succ n ih =>
      rw [stewardTrace, madeGens_append, ih,
        show madeGens (WardAction.closeWardDone n :: startWardActions (n + 1)) = [n + 1] from rfl,
        ← List.range_succ]

theorem stewardTrace_block (k g : Nat) (h : g < k) :
    ∃ pre post, stewardTrace k =
      pre ++ ([WardAction.closeWardDone g, WardAction.makeWardDone (g + 1),
               WardAction.startWardGoroutine (g + 1)] ++ post) := by
  induction k with
  | zero => omega
  | succ n ih =>
      rcases Nat.lt_succ_iff_lt_or_eq.mp h with h1 | h1
      · obtain ⟨pre, post, hp⟩ := ih h1
        refine ⟨pre, post ++ (WardAction.closeWardDone n :: startWardActions (n + 1)), ?_⟩
        rw [stewardTrace, hp]
        simp
      · subst h1
        refine ⟨stewardTrace g, [], ?_⟩
        rw [stewardTrace]
        simp [startWardActions]

/-- C9: per steward at most one ward instance is active at any point of
the action trace (`activeOk`); each of the `k + 1` ward generations gets a
freshly created private done channel (the made generations are exactly
`0, ..., k`, pairwise distinct); and for every restart the close of the
previous ward's done channel appears in the trace immediately before the
fresh channel creation and factory invocation of the next generation. -/
theorem steward_single_active_ward (k : Nat) :
    activeOk 0 (stewardTrace k) = true ∧
    madeGens (stewardTrace k) = List.range (k + 1) ∧
    (madeGens (stewardTrace k)).Nodup ∧
    (∀ g, g < k → ∃ pre post, stewardTrace k =
      pre ++ ([WardAction.closeWardDone g, WardAction.makeWardDone (g + 1),
               WardAction.startWardGoroutine (g + 1)] ++ post)) :=
  ⟨(stewardTrace_ok k).1,
   stewardTrace_madeGens k,
   by rw [stewardTrace_madeGens k]; exact List.nodup_range _,
   fun g hg => stewardTrace_block k g hg⟩

/-- Witness for `steward_single_active_ward` at `k = 2` timeouts, `g = 1`. -/
theorem steward_single_active_ward_witness :
    activeOk 0 (stewardTrace 2) = true ∧
    (1 : Nat) < 2 ∧
    (∃ pre post, stewardTrace 2 =
      pre ++ ([WardAction.closeWardDone 1, WardAction.makeWardDone 2,
               WardAction.startWardGoroutine 2] ++ post)) :=
  ⟨(steward_single_active_ward 2).1, by decide,
   (steward_single_active_ward 2).2.2.2 1 (by decide)⟩

/-- Buffer capacity of the heartbeat channel made by the interval-flavor
`doWork` (theory-1.txt line 572): `heartbeat := make(chan interface{})`,
an unbuffered channel. -/
def doWorkHeartbeatCapacity : Nat := 0

/-- Buffer capacity of the heartbeat channel made by the work-start-flavor
`DoWork` (theory-1.txt line 1261): `heartbeat := make(chan interface{}, 1)`. -/
def DoWorkHeartbeatCapacity : Nat := 1

/-- Buffer capacity of the heartbeat channel made by `DoWork1`
(theory-1.txt line 1287): `heartbeat := make(chan interface{}, 1)`. -/
def DoWork1HeartbeatCapacity : Nat := 1

/-- State of a heartbeat channel: its buffer capacity and how many pulses
are currently buffered. -/
structure HBChan where
  cap : Nat
  buffered : Nat
deriving DecidableEq

/-- The non-blocking pulse send `sendPulse` (theory-1.txt lines 581-586):
`select { case heartbeat <- struct{}{}: default: }`.  The send succeeds if
a receiver is waiting or the buffer has room; otherwise the `default`
clause runs and the pulse is dropped, leaving the channel unchanged.  The
returned flag records whether the pulse was delivered.  In every case the
function returns at once: it never suspends the caller. -/
def sendPulse (receiverReady : Bool) (ch : HBChan) : HBChan × Bool :=
  if receiverReady then (ch, true)
  else if ch.buffered < ch.cap then ({ ch with buffered := ch.buffered + 1 }, true)
  else (ch, false)

/-- Events of a run of the work-start generator `DoWork` (theory-1.txt
lines 1260-1284), in program order:
* `sleep` — `time.Sleep(2 * time.Second)`, the startup delay;
* `pulseAttempt d` — the non-blocking heartbeat send at the top of a loop
  iteration (`d` records whether the pulse was delivered or dropped);
* `sendInt n` — `intStream <- n`;
* `closeIntStream`, `closeHeartbeat` — the deferred closes, run in LIFO
  order on exit. -/
inductive DWEvent where
  | sleep : DWEvent
  | pulseAttempt (delivered : Bool) : DWEvent
  | sendInt (n : Int) : DWEvent
  | closeIntStream : DWEvent
  | closeHeartbeat : DWEvent
deriving DecidableEq

/-- The loop body of `DoWork` (theory-1.txt lines 1267-1277): for each
`n` of `nums`, first the non-blocking heartbeat send, then
`select { case <-done: return; case intStream <- n: }`.  `doneAt i` tells
whether `done` has fired by iteration `i`'s select (the cancellation
schedule); `hbFree i` tells whether the non-blocking heartbeat send can
deliver at iteration `i` (receiver waiting or buffer space). -/
def doWorkLoopEvents (doneAt hbFree : Nat → Bool) : List Int → Nat → List DWEvent
  | [], _ => []
  | n :: rest, i =>
      DWEvent.pulseAttempt (hbFree i) ::
        (if doneAt i then []
         else DWEvent.sendInt n :: doWorkLoopEvents doneAt hbFree rest (i + 1))

/-- Full event trace of `DoWork` (theory-1.txt lines 1260-1284): the
2-second startup sleep, then the loop, then the deferred closes. -/
def doWorkEvents (doneAt hbFree : Nat → Bool) (nums : List Int) : List DWEvent :=
  DWEvent.sleep ::
    (doWorkLoopEvents doneAt hbFree nums 0 ++ [DWEvent.closeIntStream, DWEvent.closeHeartbeat])

/-- The values sent on `intStream`, in order, during a trace. -/
def sentInts : List DWEvent → List Int
  | [] => []
  | DWEvent.sendInt n :: rest => n :: sentInts rest
  | _ :: rest => sentInts rest

/-- Checks that every `sendInt` in the trace is immediately preceded by a
heartbeat `pulseAttempt` (a pulse before each unit of work). -/
def sendsGuarded : List DWEvent → Bool
  | [] => true
  | DWEvent.sendInt _ :: _ => false
  | DWEvent.pulseAttempt _ :: DWEvent.sendInt _ :: rest => sendsGuarded rest
  | _ :: rest => sendsGuarded rest

def isSleepEvent : DWEvent → Bool
  | DWEvent.sleep => true
  | _ => false

def isPulseEvent : DWEvent → Bool
  | DWEvent.pulseAttempt _ => true
  | _ => false

theorem sentInts_append (l1 l2 : List DWEvent) :
    sentInts (l1 ++ l2) = sentInts l1 ++ sentInts l2 := by
  induction l1 with
  | nil => rfl
  | cons e rest ih => cases e <;> simp [sentInts, ih]

theorem doWorkLoop_sent (hbFree : Nat → Bool) (nums : List Int) (i : Nat) :
    sentInts (doWorkLoopEvents (fun _ => false) hbFree nums i) = nums := by
  induction nums generalizing i with
  | nil => rfl
  | cons n rest ih => simp [doWorkLoopEvents, sentInts, ih (i + 1)]

theorem doWorkLoop_no_close (doneAt hbFree : Nat → Bool) (nums : List Int) (i : Nat) :
    DWEvent.closeIntStream ∉ doWorkLoopEvents doneAt hbFree nums i := by
  induction nums generalizing i with
  | nil => simp [doWorkLoopEvents]
  | cons n rest ih =>
      intro hmem
      simp only [doWorkLoopEvents, List.mem_cons] at hmem
      rcases hmem with h | h
      · exact DWEvent.noConfusion h
      · by_cases hd : doneAt i
        · rw [if_pos hd] at h
          simp at h
        · rw [if_neg hd] at h
          rcases List.mem_cons.mp h with h2 | h2
          · exact DWEvent.noConfusion h2
          · exact ih (i + 1) h2

/-- C4: feeding the seeds through `DoWork` with no cancellation, the data
channel `intStream` yields exactly the input values in input order and
then closes (the single linear stage is order-preserving item-for-item);
in particular for the seeds `[0, 1, 2, 3, 5]` it yields `0, 1, 2, 3, 5`. -/
theorem DoWork_yields_in_order (hbFree : Nat → Bool) (nums : List Int) :
    sentInts (doWorkEvents (fun _ => false) hbFree nums) = nums ∧
    (∃ body, doWorkEvents (fun _ => false) hbFree nums
        = DWEvent.sleep :: (body ++ [DWEvent.closeIntStream, DWEvent.closeHeartbeat]) ∧
      sentInts body = nums ∧ DWEvent.closeIntStream ∉ body) ∧
    sentInts (doWorkEvents (fun _ => false) (fun _ => true) [0, 1, 2, 3, 5]) = [0, 1, 2, 3, 5] := by
  refine ⟨?_,
    ⟨doWorkLoopEvents (fun _ => false) hbFree nums 0, rfl, doWorkLoop_sent hbFree nums 0,
      doWorkLoop_no_close _ _ _ _⟩, by decide⟩
  simp [doWorkEvents, sentInts, sentInts_append, doWorkLoop_sent hbFree nums 0]

/-- C5 counterexample: in the run of `DoWork` on seeds `[0, 1, 2, 3, 5]`
with no cancellation and a free heartbeat buffer, the 2-second startup
sleep is the very first event and strictly precedes the first heartbeat
pulse attempt: no pulse is delivered before the startup delay elapses. -/
theorem DoWork_no_pulse_before_delay :
    (doWorkEvents (fun _ => false) (fun _ => true) [0, 1, 2, 3, 5]).head? = some DWEvent.sleep ∧
    (doWorkEvents (fun _ => false) (fun _ => true) [0, 1, 2, 3, 5]).findIdx isSleepEvent
      < (doWorkEvents (fun _ => false) (fun _ => true) [0, 1, 2, 3, 5]).findIdx isPulseEvent := by
  decide

theorem doWorkLoop_guarded (doneAt hbFree : Nat → Bool) (nums : List Int) (i : Nat) :
    sendsGuarded (doWorkLoopEvents doneAt hbFree nums i
      ++ [DWEvent.closeIntStream, DWEvent.closeHeartbeat]) = true := by
  induction nums generalizing i with
  | nil => rfl
  | cons n rest ih =>
      by_cases hd : doneAt i
      · simp only [doWorkLoopEvents, if_pos hd]
        rfl
      · simp only [doWorkLoopEvents, if_neg hd, List.cons_append]
        simp only [sendsGuarded]
        exact ih (i + 1)

/-- C5 (amended): in every run of `DoWork` a heartbeat pulse is attempted
immediately before each unit of work (each `intStream` send), and the
first event of the run is the 2-second startup sleep — so the first pulse
comes after, not before, the startup delay. -/
theorem DoWork_pulse_before_each_send (doneAt hbFree : Nat → Bool) (nums : List Int) :
    sendsGuarded (doWorkEvents doneAt hbFree nums) = true ∧
    (doWorkEvents doneAt hbFree nums).head? = some DWEvent.sleep := by
  refine ⟨?_, rfl⟩
  show sendsGuarded (DWEvent.sleep :: (doWorkLoopEvents doneAt hbFree nums 0
    ++ [DWEvent.closeIntStream, DWEvent.closeHeartbeat])) = true
  simp only [sendsGuarded]
  exact doWorkLoop_guarded doneAt hbFree nums 0

theorem doWorkLoop_data_indep (doneAt hbFree hbFree2 : Nat → Bool) (nums : List Int) (i : Nat) :
    sentInts (doWorkLoopEvents doneAt hbFree nums i)
      = sentInts (doWorkLoopEvents doneAt hbFree2 nums i) := by
  induction nums generalizing i with
  | nil => rfl
  | cons n rest ih =>
      by_cases hd : doneAt i <;>
        simp [doWorkLoopEvents, hd, sentInts, ih (i + 1)]

/-- C6: the heartbeat send never blocks the stage's data work: `sendPulse`
never grows the buffer beyond its capacity, a pulse that cannot be
delivered immediately is dropped leaving the channel unchanged (not queued,
not an error), and the data values produced by `DoWork` are identical
whatever the heartbeat delivery outcomes are. -/
theorem heartbeat_send_never_blocks (r : Bool) (ch : HBChan) (h : ch.buffered ≤ ch.cap)
    (doneAt hbFree hbFree2 : Nat → Bool) (nums : List Int) :
    (sendPulse r ch).1.buffered ≤ ch.cap ∧
    ((sendPulse r ch).2 = false → (sendPulse r ch).1 = ch) ∧
    sentInts (doWorkEvents doneAt hbFree nums) = sentInts (doWorkEvents doneAt hbFree2 nums) := by
  refine ⟨?_, ?_, ?_⟩
  · unfold sendPulse
    split_ifs with h1 h2 <;> simp <;> omega
  · unfold sendPulse
    split_ifs <;> simp
  · simp [doWorkEvents, sentInts, sentInts_append,
      doWorkLoop_data_indep doneAt hbFree hbFree2 nums 0]

/-- Witness for `heartbeat_send_never_blocks`: a full capacity-1 buffer
with no receiver, and the seed list `[7]` under two delivery schedules. -/
theorem heartbeat_send_never_blocks_witness :
    (sendPulse false ⟨1, 1⟩).1.buffered ≤ 1 ∧
    ((sendPulse false ⟨1, 1⟩).2 = false → (sendPulse false ⟨1, 1⟩).1 = ⟨1, 1⟩) ∧
    sentInts (doWorkEvents (fun _ => false) (fun _ => true) [7])
      = sentInts (doWorkEvents (fun _ => false) (fun _ => false) [7]) :=
  heartbeat_send_never_blocks false ⟨1, 1⟩ (by decide)
    (fun _ => false) (fun _ => true) (fun _ => false) [7]

/-- C7 counterexample: the heartbeat channel of the interval-flavor
monitor `doWork` (theory-1.txt line 572) is created unbuffered, not with
capacity 1. -/
theorem interval_heartbeat_not_capacity_one :
    doWorkHeartbeatCapacity ≠ 1 ∧ doWorkHeartbeatCapacity = 0 := by decide

/-- C7 (amended): the work-start-flavor heartbeat channels (`DoWork`,
`DoWork1`) are created with buffer capacity exactly 1 — so one pulse
survives even with no receiver waiting — while the interval-flavor
`doWork` creates an unbuffered heartbeat channel, on which a send with no
receiver is dropped. -/
theorem heartbeat_channel_capacities :
    doWorkHeartbeatCapacity = 0 ∧
    DoWorkHeartbeatCapacity = 1 ∧
    DoWork1HeartbeatCapacity = 1 ∧
    (sendPulse false ⟨DoWorkHeartbeatCapacity, 0⟩).2 = true ∧
    (sendPulse false ⟨doWorkHeartbeatCapacity, 0⟩).2 = false := by
  decide
